import Mathlib

/-!
Shallow embedding of `src/hashver/hashver.py` (the `HashVer` codec).

Modelling conventions:
* Python arbitrary-precision `int` is modelled by `Int` (values) and `Nat`
  (bit widths, which the profile supplies as nonnegative shift amounts).
* Python `str.split(sep)` for a one-character separator is modelled by
  `pySplit` on `List Char`; a Lean `String` is a wrapper around `List Char`,
  so `String.toList` gives the faithful character sequence.
* Python `int(s)` (base 10) is modelled by `pyIntChars`: strip whitespace,
  optional sign, decimal digits with single underscores allowed between
  digits.  (Unicode digits and exotic whitespace are outside the model.)
* Python `str(n)` on a nonnegative integer is modelled by `natDecChars`.
* A raised `HashVerException` is modelled as `Except.error` carrying the
  message; the spec's error taxonomy (parse / arity / overflow) is the
  `EKind` tag attached to each raise site.
* For bitwise operations on arbitrary integers, Python's `x & ((1 << w) - 1)`
  equals `x % 2 ^ w` and `x >> w` equals `x / 2 ^ w` (Euclidean mod and
  division, which Lean's `Int` `%` and `/` provide for positive divisors).
-/

/-- Decimal digit character: `digitChar k` is the character for `k < 10`. -/
def digitChar (n : Nat) : Char := Char.ofNat (48 + n)

/-- Decimal rendering of a natural number, modelling Python `str(n)` for
`n >= 0` (most significant digit first). -/
def natDecChars (n : Nat) : List Char :=
  if _h : n < 10 then [digitChar n]
  else natDecChars (n / 10) ++ [digitChar (n % 10)]
decreasing_by
  exact Nat.div_lt_self (by omega) (by omega)

/-- Tail of the digit parser for Python `int`: consumes decimal digits with
single underscores allowed between digits, accumulating the value. -/
def pyDigitsAux : List Char → Nat → Option Nat
  | [], acc => some acc
  | c :: rest, acc =>
    if c = '_' then
      match rest with
      | [] => none
      | c' :: rest' =>
        if c'.isDigit then pyDigitsAux rest' (acc * 10 + (c'.toNat - 48)) else none
    else if c.isDigit then pyDigitsAux rest (acc * 10 + (c.toNat - 48)) else none

/-- Digit-string parser for Python `int`: a nonempty digit sequence with
single underscores allowed between digits. -/
def pyDigits : List Char → Option Nat
  | [] => none
  | c :: rest => if c.isDigit then pyDigitsAux rest (c.toNat - 48) else none

/-- Strip leading and trailing whitespace, as Python `int` does before
parsing. -/
def pyStrip (cs : List Char) : List Char :=
  ((cs.dropWhile Char.isWhitespace).reverse.dropWhile Char.isWhitespace).reverse

/-- Python `int(s)` in base 10 on a character list: optional sign in front of
a digit string; `none` models a raised `ValueError`. -/
def pyIntChars (cs : List Char) : Option Int :=
  match pyStrip cs with
  | [] => none
  | c :: rest =>
    if c = '-' then (pyDigits rest).map (fun n => -(n : Int))
    else if c = '+' then (pyDigits rest).map (fun n => (n : Int))
    else (pyDigits (c :: rest)).map (fun n => (n : Int))

/-- Worker for `pySplit`: `cur` is the (reversed) chunk read so far. -/
def pySplitAux (sep : Char) : List Char → List Char → List (List Char)
  | [], cur => [cur.reverse]
  | c :: rest, cur =>
    if c = sep then cur.reverse :: pySplitAux sep rest []
    else pySplitAux sep rest (c :: cur)

/-- Python `s.split(sep)` for a single-character separator: always returns at
least one (possibly empty) chunk. -/
def pySplit (sep : Char) (cs : List Char) : List (List Char) :=
  pySplitAux sep cs []

/-- The spec's error taxonomy for `HashVerException` raise sites. -/
inductive EKind where
  | parse
  | arity
  | overflow
deriving DecidableEq

/-- A raised `HashVerException`, tagged with the spec's error kind and
carrying the exception message. -/
structure HVErr where
  kind : EKind
  msg : String
deriving DecidableEq

instance {ε α : Type} [DecidableEq ε] [DecidableEq α] : DecidableEq (Except ε α) :=
  fun a b =>
    match a, b with
    | .ok x, .ok y =>
      match decEq x y with
      | isTrue h => isTrue (h ▸ rfl)
      | isFalse h => isFalse (fun hh => h (Except.ok.inj hh))
    | .error x, .error y =>
      match decEq x y with
      | isTrue h => isTrue (h ▸ rfl)
      | isFalse h => isFalse (fun hh => h (Except.error.inj hh))
    | .ok _, .error _ => isFalse (fun hh => Except.noConfusion hh)
    | .error _, .ok _ => isFalse (fun hh => Except.noConfusion hh)

/-- `str(err)` of the `ValueError` raised by Python `int` on a bad literal
(string `repr` modelled as plain single quotes). -/
def intErrMsg (c : List Char) : String :=
  "invalid literal for int() with base 10: '" ++ String.mk c ++ "'"

/-- Python `str(list)` applied to the `bits_per_component` list, as used in
the source's error messages, e.g. `"[16, 16, 16]"`. -/
def pyStrList (bpc : List Nat) : String :=
  "[" ++ String.mk (List.intercalate (", ".toList) (bpc.map natDecChars)) ++ "]"

/-- Python `str(n)` for an `Int` (the `%d` formatting in the source). -/
def pyIntStr (n : Int) : String :=
  if n < 0 then "-" ++ String.mk (natDecChars (-n).toNat)
  else String.mk (natDecChars n.toNat)

/-- Message of the source's "all components except the last must be numeric"
raise (`hashver.py` lines 54-57). -/
def initCompMsg (c : List Char) : String :=
  "All version components except the last one  must be a numeric value. Current component value: "
    ++ String.mk c ++ ": " ++ intErrMsg c

/-- Message of the source's "last component" raise (`hashver.py`
lines 66-70). -/
def lastCompMsg (last : List Char) : String :=
  "Value of last component can only be a numeric value or a hyphen separated alphanumeric like 8-rc1. Current value: "
    ++ String.mk last ++ ": " ++ intErrMsg ((pySplit '-' last).headD [])

/-- Message of the source's arity-mismatch raise (`hashver.py` lines 75-77):
names the version string and `str(bpc)`. -/
def arityMsg (version_str : String) (bpc : List Nat) : String :=
  version_str ++ " must have as many dot separated components as " ++ pyStrList bpc

/-- Message of the source's decode-overflow raise (`hashver.py` line 110). -/
def overflowMsg (num : Int) (bpc : List Nat) : String :=
  pyIntStr num ++ " is not compatible with " ++ pyStrList bpc

/-- The source's loop over `components[:-1]`: `int(comp)` for each component,
raising on the first failure (`hashver.py` lines 50-59). -/
def parseInitComps : List (List Char) → Except HVErr (List Int)
  | [] => .ok []
  | c :: rest =>
    match pyIntChars c with
    | some v => (parseInitComps rest).map (fun vs => v :: vs)
    | none => .error ⟨EKind.parse, initCompMsg c⟩

/-- The source's handling of the last component: split on `-` and parse the
first chunk (`hashver.py` lines 63-72). -/
def lastCompVal (last : List Char) : Except HVErr Int :=
  match pyIntChars ((pySplit '-' last).headD []) with
  | some v => .ok v
  | none => .error ⟨EKind.parse, lastCompMsg last⟩

/-- The parsing-and-arity-check prefix of `HashVer.get_num` (`hashver.py`
lines 49-78): split on dots, parse every component, then require as many
components as `bits_per_component` entries. -/
def parse_vpc (bpc : List Nat) (version_str : String) : Except HVErr (List Int) :=
  match parseInitComps (pySplit '.' version_str.toList).dropLast with
  | .error e => .error e
  | .ok initVals =>
    match lastCompVal ((pySplit '.' version_str.toList).getLastD []) with
    | .error e => .error e
    | .ok lastVal =>
      let vpc := initVals ++ [lastVal]
      if bpc.length ≠ vpc.length then
        .error ⟨EKind.arity, arityMsg version_str bpc⟩
      else
        .ok vpc

/-- The accumulation loop of `HashVer.get_num` (`hashver.py` lines 80-89):
state `(num, shift)` starts at `(0, False)`; each `(cur_val, num_of_bits)`
pair shifts `num` left by `num_of_bits` unless it is the first pair, then
adds `cur_val`. -/
def hvAccum (pairs : List (Int × Nat)) : Int :=
  (pairs.foldl
    (fun (st : Int × Bool) p =>
      (if st.2 then st.1 * 2 ^ p.2 + p.1 else st.1 + p.1, true))
    ((0 : Int), false)).1

/-- Accumulation once the `shift` flag is set: every remaining pair shifts
then adds (proof-layer unfolding of `hvAccum`). -/
def hvAccumGo (a : Int) : List (Int × Nat) → Int
  | [] => a
  | (v, w) :: rest => hvAccumGo (a * 2 ^ w + v) rest

/-- `HashVer.get_num` (`hashver.py` lines 38-92): parse, check arity,
accumulate.  The outer `except Exception` re-raise wrapper of the source
(lines 90-92) never fires in the modelled behaviors: `HashVerException`
subclasses `BaseException`, not `Exception`, so every inner raise propagates
unwrapped (its message carries no `"Parsing Error: "` prefix), and no other
exception can arise from the body on string input with natural widths. -/
def get_num (bpc : List Nat) (version_str : String) : Except HVErr Int :=
  (parse_vpc bpc version_str).map (fun vpc => hvAccum (vpc.zip bpc))

/-- The decode loop of `HashVer.get_version_str` (`hashver.py` lines
102-107): iterate widths in reverse (so the head width is handled last),
extract `mut_num & ((1 <<  w) - 1)` as a decimal string, shift right by `w`;
returns the component strings in profile order and the final `mut_num`. -/
def decodeLoop (bpc : List Nat) (num : Int) : List (List Char) × Int :=
  match bpc with
  | [] => ([], num)
  | w :: rest =>
    let p := decodeLoop rest num
    (natDecChars (p.2 % 2 ^ w).toNat :: p.1, p.2 / 2 ^ w)

/-- Body of `HashVer.get_version_str` before the re-raise wrapper
(`hashver.py` lines 100-113): run the decode loop, fail if nonzero bits
remain, otherwise join with dots. -/
def get_version_strCore (bpc : List Nat) (num : Int) : Except HVErr String :=
  let p := decodeLoop bpc num
  if p.2 ≠ 0 then .error ⟨EKind.overflow, overflowMsg num bpc⟩
  else .ok (String.mk (List.intercalate ['.'] p.1))

/-- `HashVer.get_version_str` (`hashver.py` lines 94-116).  As with
`get_num`, the outer `except Exception` wrapper (lines 114-116) never
catches the `BaseException`-derived `HashVerException`, so the overflow
raise propagates unwrapped. -/
def get_version_str (bpc : List Nat) (num : Int) : Except HVErr String :=
  get_version_strCore bpc num

/-- `int(x)` applied to each chunk in order, failing at the first bad chunk,
as the comprehension in `HashVer.__init__` does. -/
def pyIntList : List (List Char) → Option (List Int)
  | [] => some []
  | c :: rest =>
    match pyIntChars c with
    | some v => (pyIntList rest).map (fun vs => v :: vs)
    | none => none

/-- `HashVer.__init__` on a string argument (`hashver.py` lines 31-34):
`[int(x) for x in bits_per_component.split('.')]`; `none` models the
uncaught `ValueError` from `int` (the spec's `ConfigError`). -/
def bpcOfString (s : String) : Option (List Int) :=
  pyIntList (pySplit '.' s.toList)

/-- `HashVer.__init__` on a list argument (`hashver.py` lines 35-36): the
list is taken as-is. -/
def bpcOfList (l : List Int) : List Int := l

/-- Suffix stripping used by the spec's round-trip statement (and by the
source's own test assertion `ver.split('-')[0] == ver_str`). -/
def strip_suffix (V : String) : String :=
  String.mk ((pySplit '-' V.toList).headD [])

/-- Total width of a profile: `sum(bits_per_component)`. -/
def widthSum : List Nat → Nat
  | [] => 0
  | w :: ws => w + widthSum ws

/-- Closed form of the accumulation in `HashVer.get_num`, as the spec words
it: `v_1 * 2 ^ (w_2 + ... + w_n) + ... + v_n`. -/
def encSpec : List Int → List Nat → Int
  | v :: vs, _w :: ws => v * 2 ^ widthSum ws + encSpec vs ws
  | _, _ => 0

/-- `Nat`-valued variant of `encSpec` for in-range component values. -/
def encSpecN : List Nat → List Nat → Nat
  | v :: vs, _w :: ws => v * 2 ^ widthSum ws + encSpecN vs ws
  | _, _ => 0

/-- `Nat`-valued decode loop (the decode loop of the source restricted to
nonnegative inputs, which is how the claims quantify it). -/
def decodeLoopN (bpc : List Nat) (num : Nat) : List (List Char) × Nat :=
  match bpc with
  | [] => ([], num)
  | w :: rest =>
    let p := decodeLoopN rest num
    (natDecChars (p.2 % 2 ^ w) :: p.1, p.2 / 2 ^ w)

/-- Components of the decode, as the claim words them: component `i` is the
input shifted right by the widths after `i` and masked to width `i`. -/
def decSpecN : List Nat → Nat → List (List Char)
  | [], _ => []
  | w :: ws, x => natDecChars (x / 2 ^ widthSum ws % 2 ^ w) :: decSpecN ws x

/-- Most-significant-first component-wise strict ordering on equally long
value lists. -/
def lexLtB : List Int → List Int → Bool
  | a :: as', b :: bs' =>
    if a < b then true
    else if a = b then lexLtB as' bs'
    else false
  | _, _ => false

/-- Error kind of a computation's outcome, `none` on success. -/
def errKind {α : Type} : Except HVErr α → Option EKind
  | .ok _ => none
  | .error e => some e.kind

/-! ### Basic facts about decimal rendering and the `int` parser -/

theorem natDecChars_lt {n : Nat} (h : n < 10) : natDecChars n = [digitChar n] := by
  rw [natDecChars]
  simp [h]

theorem natDecChars_ge {n : Nat} (h : 10 ≤ n) :
    natDecChars n = natDecChars (n / 10) ++ [digitChar (n % 10)] := by
  rw [natDecChars]
  simp [Nat.not_lt.2 h]

theorem natDecChars_unfold (n : Nat) :
    natDecChars n =
      if n < 10 then [digitChar n] else natDecChars (n / 10) ++ [digitChar (n % 10)] := by
  by_cases h : n < 10
  · simp [h, natDecChars_lt]
  · simp [h, natDecChars_ge (Nat.not_lt.1 h)]

theorem natDecChars_ne_nil (n : Nat) : natDecChars n ≠ [] := by
  rw [natDecChars_unfold]
  split <;> simp

theorem natDecChars_mem {n : Nat} : ∀ c ∈ natDecChars n, ∃ k, k < 10 ∧ c = digitChar k := by
  induction n using Nat.strong_induction_on with
  | _ n ih =>
    rw [natDecChars_unfold]
    split
    · next h =>
      intro c hc
      simp only [List.mem_singleton] at hc
      exact ⟨n, h, hc⟩
    · next h =>
      intro c hc
      rcases List.mem_append.1 hc with h1 | h2
      · exact ih (n / 10) (Nat.div_lt_self (by omega) (by omega)) c h1
      · simp only [List.mem_singleton] at h2
        exact ⟨n % 10, Nat.mod_lt _ (by omega), h2⟩

theorem digitChar_isDigit {k : Nat} (h : k < 10) : (digitChar k).isDigit = true := by
  interval_cases k <;> decide

theorem digitChar_not_ws {k : Nat} (h : k < 10) : (digitChar k).isWhitespace = false := by
  interval_cases k <;> decide

theorem digitChar_ne_dash {k : Nat} (h : k < 10) : digitChar k ≠ '-' := by
  interval_cases k <;> decide

theorem digitChar_ne_plus {k : Nat} (h : k < 10) : digitChar k ≠ '+' := by
  interval_cases k <;> decide

theorem digitChar_ne_underscore {k : Nat} (h : k < 10) : digitChar k ≠ '_' := by
  interval_cases k <;> decide

theorem digitChar_toNat {k : Nat} (h : k < 10) : (digitChar k).toNat - 48 = k := by
  interval_cases k <;> decide

theorem pyDigitsAux_digits :
    ∀ cs acc, (∀ c ∈ cs, ∃ k, k < 10 ∧ c = digitChar k) →
      pyDigitsAux cs acc = some (cs.foldl (fun a c => a * 10 + (c.toNat - 48)) acc)
  | [], acc, _ => rfl
  | c :: rest, acc, h => by
    obtain ⟨k, hk, hc⟩ := h c (List.mem_cons_self c rest)
    have hne : ¬(c = '_') := by rw [hc]; exact digitChar_ne_underscore hk
    have hdig : c.isDigit = true := by rw [hc]; exact digitChar_isDigit hk
    rw [pyDigitsAux.eq_def]
    simp only [if_neg hne, if_pos hdig, List.foldl_cons]
    exact pyDigitsAux_digits rest _ (fun c' hc' => h c' (List.mem_cons_of_mem _ hc'))

theorem pyDigits_digits (cs : List Char) (hne : cs ≠ [])
    (h : ∀ c ∈ cs, ∃ k, k < 10 ∧ c = digitChar k) :
    pyDigits cs = some (cs.foldl (fun a c => a * 10 + (c.toNat - 48)) 0) := by
  match cs, hne with
  | c :: rest, _ =>
    obtain ⟨k, hk, hc⟩ := h c (List.mem_cons_self c rest)
    have hdig : c.isDigit = true := by rw [hc]; exact digitChar_isDigit hk
    rw [pyDigits, if_pos hdig, List.foldl_cons,
      pyDigitsAux_digits rest _ (fun c' hc' => h c' (List.mem_cons_of_mem _ hc'))]
    norm_num

theorem foldl_natDecChars (n : Nat) :
    ∀ acc, (natDecChars n).foldl (fun a c => a * 10 + (c.toNat - 48)) acc
      = acc * 10 ^ (natDecChars n).length + n := by
  induction n using Nat.strong_induction_on with
  | _ n ih =>
    intro acc
    by_cases h : n < 10
    · rw [natDecChars_lt h]
      simp [digitChar_toNat h]
    · have h10 : 10 ≤ n := Nat.not_lt.1 h
      rw [natDecChars_ge h10, List.foldl_append, List.foldl_cons, List.foldl_nil,
        ih (n / 10) (Nat.div_lt_self (by omega) (by omega)) acc,
        digitChar_toNat (Nat.mod_lt _ (by omega))]
      have hlen : (natDecChars (n / 10) ++ [digitChar (n % 10)]).length
          = (natDecChars (n / 10)).length + 1 := by simp
      rw [hlen, pow_succ]
      have : 10 * (n / 10) + n % 10 = n := Nat.div_add_mod n 10
      calc (acc * 10 ^ (natDecChars (n / 10)).length + n / 10) * 10 + n % 10
          = acc * (10 ^ (natDecChars (n / 10)).length * 10) + (10 * (n / 10) + n % 10) := by
            ring
        _ = acc * (10 ^ (natDecChars (n / 10)).length * 10) + n := by rw [this]

theorem pyDigits_natDecChars (n : Nat) : pyDigits (natDecChars n) = some n := by
  rw [pyDigits_digits _ (natDecChars_ne_nil n) natDecChars_mem, foldl_natDecChars n 0]
  norm_num

theorem dropWhile_not_ws {cs : List Char}
    (h : ∀ c ∈ cs, c.isWhitespace = false) : cs.dropWhile Char.isWhitespace = cs := by
  cases cs with
  | nil => rfl
  | cons c rest =>
    rw [List.dropWhile_cons, if_neg]
    simp [h c (List.mem_cons_self c rest)]

theorem pyStrip_digits {cs : List Char}
    (h : ∀ c ∈ cs, ∃ k, k < 10 ∧ c = digitChar k) : pyStrip cs = cs := by
  have hws : ∀ c ∈ cs, c.isWhitespace = false := by
    intro c hc
    obtain ⟨k, hk, hc'⟩ := h c hc
    rw [hc']
    exact digitChar_not_ws hk
  unfold pyStrip
  rw [dropWhile_not_ws hws, dropWhile_not_ws (by simpa using hws), List.reverse_reverse]

theorem pyIntChars_natDecChars (n : Nat) : pyIntChars (natDecChars n) = some (n : Int) := by
  obtain ⟨c, rest, hL⟩ := List.exists_cons_of_ne_nil (natDecChars_ne_nil n)
  obtain ⟨k, hk, hc⟩ := natDecChars_mem c (hL ▸ List.mem_cons_self c rest)
  rw [pyIntChars, pyStrip_digits natDecChars_mem, hL]
  simp only []
  rw [if_neg (by rw [hc]; exact digitChar_ne_dash hk),
    if_neg (by rw [hc]; exact digitChar_ne_plus hk), ← hL, pyDigits_natDecChars]
  rfl

/-! ### Facts about `pySplit` -/

theorem pySplitAux_ne_nil (sep : Char) : ∀ cs cur, pySplitAux sep cs cur ≠ []
  | [], cur => by simp [pySplitAux]
  | c :: rest, cur => by
    rw [pySplitAux]
    split
    · simp
    · exact pySplitAux_ne_nil sep rest (c :: cur)

theorem pySplit_ne_nil (sep : Char) (cs : List Char) : pySplit sep cs ≠ [] :=
  pySplitAux_ne_nil sep cs []

theorem pySplitAux_no_sep (sep : Char) :
    ∀ cs cur, sep ∉ cs → pySplitAux sep cs cur = [cur.reverse ++ cs]
  | [], cur, _ => by simp [pySplitAux]
  | c :: rest, cur, h => by
    have hc : ¬(c = sep) := fun hh => h (hh ▸ List.mem_cons_self c rest)
    rw [pySplitAux, if_neg hc, pySplitAux_no_sep sep rest (c :: cur)
      (fun hm => h (List.mem_cons_of_mem _ hm))]
    simp

theorem pySplit_no_sep {sep : Char} {cs : List Char} (h : sep ∉ cs) :
    pySplit sep cs = [cs] := by
  rw [pySplit, pySplitAux_no_sep sep cs [] h]
  simp

theorem pySplitAux_head_no_sep (sep : Char) :
    ∀ cs cur, sep ∉ cur → sep ∉ (pySplitAux sep cs cur).headD []
  | [], cur, h => by
    simpa [pySplitAux] using fun hm => h (List.mem_reverse.1 hm)
  | c :: rest, cur, h => by
    rw [pySplitAux]
    split
    · simpa using fun hm => h (List.mem_reverse.1 hm)
    · next hc =>
      exact pySplitAux_head_no_sep sep rest (c :: cur)
        (by simpa using ⟨fun hh => hc hh.symm, h⟩)

theorem pySplit_head_no_sep (sep : Char) (cs : List Char) :
    sep ∉ (pySplit sep cs).headD [] :=
  pySplitAux_head_no_sep sep cs [] (by simp)

theorem pySplit_head_again (sep : Char) (cs : List Char) :
    pySplit sep ((pySplit sep cs).headD []) = [(pySplit sep cs).headD []] :=
  pySplit_no_sep (pySplit_head_no_sep sep cs)

/-! ### List helpers -/

theorem dropLast_concat_getLastD {α : Type} (d : α) :
    ∀ l : List α, l ≠ [] → l.dropLast ++ [l.getLastD d] = l
  | [x], _ => rfl
  | x :: y :: rest, _ => by
    have ih := dropLast_concat_getLastD d (y :: rest) (by simp)
    simp only [List.getLastD_cons] at ih
    simp only [List.dropLast_cons₂, List.getLastD_cons, List.cons_append]
    rw [ih]

/-! ### The accumulation loop versus its closed form -/

theorem foldl_hvAccumGo :
    ∀ (pairs : List (Int × Nat)) (a : Int),
      (pairs.foldl
        (fun (st : Int × Bool) p =>
          (if st.2 then st.1 * 2 ^ p.2 + p.1 else st.1 + p.1, true))
        (a, true)).1 = hvAccumGo a pairs
  | [], a => rfl
  | p :: rest, a => by
    rw [List.foldl_cons, hvAccumGo]
    simpa using foldl_hvAccumGo rest (a * 2 ^ p.2 + p.1)

theorem hvAccum_nil : hvAccum [] = 0 := rfl

theorem hvAccum_cons (v : Int) (w : Nat) (rest : List (Int × Nat)) :
    hvAccum ((v, w) :: rest) = hvAccumGo v rest := by
  rw [hvAccum, List.foldl_cons]
  simpa using foldl_hvAccumGo rest v

theorem hvAccumGo_eq :
    ∀ (vs : List Int) (ws : List Nat) (a : Int), vs.length = ws.length →
      hvAccumGo a (vs.zip ws) = a * 2 ^ widthSum ws + encSpec vs ws
  | [], [], a, _ => by simp [hvAccumGo, widthSum, encSpec]
  | v :: vs, w :: ws, a, h => by
    rw [List.zip_cons_cons, hvAccumGo,
      hvAccumGo_eq vs ws _ (by simpa using h)]
    show _ = a * 2 ^ (w + widthSum ws) + (v * 2 ^ widthSum ws + encSpec vs ws)
    rw [pow_add]
    ring

theorem hvAccum_eq_encSpec (vs : List Int) (ws : List Nat) (h : vs.length = ws.length) :
    hvAccum (vs.zip ws) = encSpec vs ws := by
  match vs, ws, h with
  | [], [], _ => rfl
  | v :: vs, w :: ws, h =>
    rw [List.zip_cons_cons, hvAccum_cons, hvAccumGo_eq vs ws v (by simpa using h)]
    rfl

theorem hvAccum_head_width (v : Int) (vs : List Int) (w w' : Nat) (ws : List Nat) :
    hvAccum ((v :: vs).zip (w :: ws)) = hvAccum ((v :: vs).zip (w' :: ws)) := by
  rw [List.zip_cons_cons, List.zip_cons_cons, hvAccum_cons, hvAccum_cons]

/-! ### Bounds and casts for the closed-form encoding -/

theorem encSpec_nonneg :
    ∀ (vs : List Int) (ws : List Nat), (∀ p ∈ vs.zip ws, 0 ≤ p.1) → 0 ≤ encSpec vs ws
  | [], ws, _ => by cases ws <;> simp [encSpec]
  | v :: vs, [], _ => by simp [encSpec]
  | v :: vs, w :: ws, h => by
    rw [encSpec]
    have hv : 0 ≤ v := h (v, w) (by simp [List.zip_cons_cons])
    have ih := encSpec_nonneg vs ws
      (fun p hp => h p (by simp [List.zip_cons_cons, hp]))
    positivity

theorem encSpec_lt :
    ∀ (ws : List Nat) (vs : List Int), vs.length = ws.length →
      (∀ p ∈ vs.zip ws, p.1 < 2 ^ p.2) → encSpec vs ws < 2 ^ widthSum ws
  | [], [], _, _ => by simp [encSpec, widthSum]
  | w :: ws, v :: vs, h, hb => by
    have hv : v < 2 ^ w := hb (v, w) (by simp [List.zip_cons_cons])
    have ih := encSpec_lt ws vs (by simpa using h)
      (fun p hp => hb p (by simp [List.zip_cons_cons, hp]))
    rw [encSpec]
    show v * 2 ^ widthSum ws + encSpec vs ws < 2 ^ (w + widthSum ws)
    have h1 : v + 1 ≤ 2 ^ w := hv
    have h2 : (v + 1) * 2 ^ widthSum ws ≤ 2 ^ w * 2 ^ widthSum ws :=
      mul_le_mul_of_nonneg_right h1 (by positivity)
    rw [pow_add]
    nlinarith [ih]

theorem encSpec_natCast :
    ∀ (vs : List Nat) (ws : List Nat),
      encSpec (vs.map Int.ofNat) ws = ((encSpecN vs ws : Nat) : Int)
  | [], ws => by cases ws <;> simp [encSpec, encSpecN]
  | v :: vs, [] => by simp [encSpec, encSpecN]
  | v :: vs, w :: ws => by
    rw [List.map_cons, encSpec, encSpecN, encSpec_natCast vs ws]
    push_cast [Int.ofNat_eq_natCast]
    ring

theorem encSpecN_lt :
    ∀ (ws : List Nat) (vs : List Nat), vs.length = ws.length →
      (∀ p ∈ vs.zip ws, p.1 < 2 ^ p.2) → encSpecN vs ws < 2 ^ widthSum ws
  | [], [], _, _ => by simp [encSpecN, widthSum]
  | w :: ws, v :: vs, h, hb => by
    have hv : v < 2 ^ w := hb (v, w) (by simp [List.zip_cons_cons])
    have ih := encSpecN_lt ws vs (by simpa using h)
      (fun p hp => hb p (by simp [List.zip_cons_cons, hp]))
    rw [encSpecN]
    show v * 2 ^ widthSum ws + encSpecN vs ws < 2 ^ (w + widthSum ws)
    calc v * 2 ^ widthSum ws + encSpecN vs ws
        < v * 2 ^ widthSum ws + 2 ^ widthSum ws := Nat.add_lt_add_left ih _
      _ = (v + 1) * 2 ^ widthSum ws := by ring
      _ ≤ 2 ^ w * 2 ^ widthSum ws := Nat.mul_le_mul_right _ hv
      _ = 2 ^ (w + widthSum ws) := (pow_add 2 w (widthSum ws)).symm

/-! ### The decode loop -/

theorem decodeLoopN_snd :
    ∀ (bpc : List Nat) (n : Nat), (decodeLoopN bpc n).2 = n / 2 ^ widthSum bpc
  | [], n => by simp [decodeLoopN, widthSum]
  | w :: ws, n => by
    rw [decodeLoopN]
    show (decodeLoopN ws n).2 / 2 ^ w = n / 2 ^ widthSum (w :: ws)
    rw [decodeLoopN_snd ws n, Nat.div_div_eq_div_mul, ← pow_add]
    show n / 2 ^ (widthSum ws + w) = n / 2 ^ (w + widthSum ws)
    rw [Nat.add_comm]

theorem decodeLoopN_fst_mod :
    ∀ (bpc : List Nat) (n m : Nat),
      n % 2 ^ widthSum bpc = m % 2 ^ widthSum bpc →
      (decodeLoopN bpc n).1 = (decodeLoopN bpc m).1
  | [], n, m, _ => rfl
  | w :: ws, n, m, h => by
    have hdvd : (2 : Nat) ^ widthSum ws ∣ 2 ^ widthSum (w :: ws) :=
      pow_dvd_pow 2 (by show widthSum ws ≤ w + widthSum ws; omega)
    have htail : n % 2 ^ widthSum ws = m % 2 ^ widthSum ws := by
      rw [← Nat.mod_mod_of_dvd n hdvd, ← Nat.mod_mod_of_dvd m hdvd, h]
    have hhead : n / 2 ^ widthSum ws % 2 ^ w = m / 2 ^ widthSum ws % 2 ^ w := by
      rw [← Nat.mod_mul_right_div_self, ← Nat.mod_mul_right_div_self, ← pow_add]
      have harr : widthSum ws + w = widthSum (w :: ws) := by
        show widthSum ws + w = w + widthSum ws; omega
      rw [harr, h]
    rw [decodeLoopN, decodeLoopN]
    show (natDecChars ((decodeLoopN ws n).2 % 2 ^ w) :: (decodeLoopN ws n).1)
        = (natDecChars ((decodeLoopN ws m).2 % 2 ^ w) :: (decodeLoopN ws m).1)
    rw [decodeLoopN_fst_mod ws n m htail, decodeLoopN_snd, decodeLoopN_snd, hhead]

theorem decodeLoopN_roundTrip :
    ∀ (bpc : List Nat) (vals : List Nat), vals.length = bpc.length →
      (∀ p ∈ vals.zip bpc, p.1 < 2 ^ p.2) →
      decodeLoopN bpc (encSpecN vals bpc) = (vals.map natDecChars, 0)
  | [], [], _, _ => rfl
  | w :: ws, v :: vs, h, hb => by
    have hv : v < 2 ^ w := hb (v, w) (by simp [List.zip_cons_cons])
    have htb : ∀ p ∈ vs.zip ws, p.1 < 2 ^ p.2 :=
      fun p hp => hb p (by simp [List.zip_cons_cons, hp])
    have hlen : vs.length = ws.length := by simpa using h
    have hN' : encSpecN vs ws < 2 ^ widthSum ws := encSpecN_lt ws vs hlen htb
    have hEnc : encSpecN (v :: vs) (w :: ws) = v * 2 ^ widthSum ws + encSpecN vs ws := rfl
    have hpos : 0 < 2 ^ widthSum ws := Nat.pos_pow_of_pos _ (by omega)
    have hsnd : (decodeLoopN ws (encSpecN (v :: vs) (w :: ws))).2 = v := by
      rw [decodeLoopN_snd, hEnc, Nat.add_comm, Nat.add_mul_div_right _ _ hpos,
        Nat.div_eq_of_lt hN', Nat.zero_add]
    have hfst : (decodeLoopN ws (encSpecN (v :: vs) (w :: ws))).1
        = vs.map natDecChars := by
      have hmod : encSpecN (v :: vs) (w :: ws) % 2 ^ widthSum ws
          = encSpecN vs ws % 2 ^ widthSum ws := by
        rw [hEnc, Nat.add_comm, Nat.add_mul_mod_self_right]
      rw [decodeLoopN_fst_mod ws _ _ hmod]
      rw [decodeLoopN_roundTrip ws vs hlen htb]
    rw [decodeLoopN]
    show (natDecChars ((decodeLoopN ws (encSpecN (v :: vs) (w :: ws))).2 % 2 ^ w)
          :: (decodeLoopN ws (encSpecN (v :: vs) (w :: ws))).1,
        (decodeLoopN ws (encSpecN (v :: vs) (w :: ws))).2 / 2 ^ w)
      = ((v :: vs).map natDecChars, 0)
    rw [hsnd, hfst, Nat.mod_eq_of_lt hv, Nat.div_eq_of_lt hv, List.map_cons]

theorem decodeLoop_natCast :
    ∀ (bpc : List Nat) (n : Nat),
      decodeLoop bpc (n : Int) = ((decodeLoopN bpc n).1, ((decodeLoopN bpc n).2 : Int))
  | [], n => rfl
  | w :: ws, n => by
    rw [decodeLoop, decodeLoopN, decodeLoop_natCast ws n]
    have hpow : (2 : Int) ^ w = ((2 ^ w : Nat) : Int) := by push_cast; ring
    have hmod : (((decodeLoopN ws n).2 : Nat) : Int) % ((2 ^ w : Nat) : Int)
        = (((decodeLoopN ws n).2 % 2 ^ w : Nat) : Int) := by
      push_cast
      ring
    have hdiv : (((decodeLoopN ws n).2 : Nat) : Int) / ((2 ^ w : Nat) : Int)
        = (((decodeLoopN ws n).2 / 2 ^ w : Nat) : Int) := by
      rw [Int.ofNat_ediv]
    simp only [hpow, hmod, hdiv, Int.toNat_ofNat]

theorem decodeLoopN_fst_decSpecN :
    ∀ (bpc : List Nat) (x : Nat), (decodeLoopN bpc x).1 = decSpecN bpc x
  | [], x => rfl
  | w :: ws, x => by
    rw [decodeLoopN, decSpecN]
    show natDecChars ((decodeLoopN ws x).2 % 2 ^ w) :: (decodeLoopN ws x).1
      = natDecChars (x / 2 ^ widthSum ws % 2 ^ w) :: decSpecN ws x
    rw [decodeLoopN_snd, decodeLoopN_fst_decSpecN ws x]

/-! ### Structural lemmas about `parse_vpc` and `get_num` -/

theorem parseInitComps_natDec :
    ∀ ns : List Nat, parseInitComps (ns.map natDecChars) = Except.ok (ns.map Int.ofNat)
  | [] => rfl
  | n :: ns => by
    simp [parseInitComps, pyIntChars_natDecChars, parseInitComps_natDec ns,
      Int.ofNat_eq_natCast, Except.map]

theorem lastCompVal_natDec (lastC : List Char) (v : Nat)
    (hlast : (pySplit '-' lastC).headD [] = natDecChars v) :
    lastCompVal lastC = Except.ok (Int.ofNat v) := by
  rw [lastCompVal, hlast, pyIntChars_natDecChars]
  rfl

theorem map_dropLast_getLastD {α β : Type} (f : α → β) (l : List α) (hne : l ≠ []) (d : α) :
    l.dropLast.map f ++ [f (l.getLastD d)] = l.map f := by
  conv_rhs => rw [← dropLast_concat_getLastD d l hne]
  rw [List.map_append, List.map_dropLast]
  simp

theorem parse_vpc_canonical (bpc : List Nat) (vals : List Nat) (lastC : List Char)
    (V : String) (hne : vals ≠ []) (hlen : vals.length = bpc.length)
    (hsplit : pySplit '.' V.toList = vals.dropLast.map natDecChars ++ [lastC])
    (hlast : (pySplit '-' lastC).headD [] = natDecChars (vals.getLastD 0)) :
    parse_vpc bpc V = Except.ok (vals.map Int.ofNat) := by
  rw [parse_vpc, hsplit, List.dropLast_concat, List.getLastD_concat,
    parseInitComps_natDec, lastCompVal_natDec lastC (vals.getLastD 0) hlast]
  show (let vpc := (vals.dropLast.map Int.ofNat) ++ [Int.ofNat (vals.getLastD 0)]
    if bpc.length ≠ vpc.length then
      (Except.error (HVErr.mk EKind.arity (arityMsg V bpc)) : Except HVErr (List Int))
    else
      Except.ok vpc) = Except.ok (vals.map Int.ofNat)
  rw [map_dropLast_getLastD Int.ofNat vals hne 0]
  have hl : bpc.length = (vals.map Int.ofNat).length := by
    rw [List.length_map, hlen]
  simp [hl]

theorem parse_vpc_length {bpc : List Nat} {V : String} {vals : List Int}
    (h : parse_vpc bpc V = Except.ok vals) : vals.length = bpc.length := by
  rw [parse_vpc] at h
  cases hI : parseInitComps (pySplit '.' V.toList).dropLast with
  | error e => rw [hI] at h; exact Except.noConfusion h
  | ok initVals =>
    rw [hI] at h
    cases hL : lastCompVal ((pySplit '.' V.toList).getLastD []) with
    | error e => rw [hL] at h; exact Except.noConfusion h
    | ok lastVal =>
      rw [hL] at h
      have h' : (if bpc.length ≠ (initVals ++ [lastVal]).length then
            (Except.error (HVErr.mk EKind.arity (arityMsg V bpc)) : Except HVErr (List Int))
          else Except.ok (initVals ++ [lastVal])) = Except.ok vals := h
      by_cases hc : bpc.length ≠ (initVals ++ [lastVal]).length
      · rw [if_pos hc] at h'; exact Except.noConfusion h'
      · rw [if_neg hc] at h'
        have hv : initVals ++ [lastVal] = vals := Except.ok.inj h'
        rw [← hv]
        omega

theorem get_num_of_parse {bpc : List Nat} {V : String} {vals : List Int}
    (h : parse_vpc bpc V = Except.ok vals) :
    get_num bpc V = Except.ok (hvAccum (vals.zip bpc)) := by
  rw [get_num, h]
  rfl

theorem get_num_of_parse_err {bpc : List Nat} {V : String} {e : HVErr}
    (h : parse_vpc bpc V = Except.error e) : get_num bpc V = Except.error e := by
  rw [get_num, h]
  rfl

theorem parseInitComps_err_kind :
    ∀ {l : List (List Char)} {e : HVErr},
      parseInitComps l = Except.error e → e.kind = EKind.parse
  | [], e, h => Except.noConfusion h
  | c :: rest, e, h => by
    rw [parseInitComps] at h
    cases hp : pyIntChars c with
    | some v =>
      rw [hp] at h
      cases hr : parseInitComps rest with
      | error e' =>
        rw [hr] at h
        have h' : (Except.error e' : Except HVErr (List Int)) = Except.error e := h
        have : e' = e := Except.error.inj h'
        exact this ▸ parseInitComps_err_kind hr
      | ok vs =>
        rw [hr] at h
        have h' : (Except.ok (v :: vs) : Except HVErr (List Int)) = Except.error e := h
        exact Except.noConfusion h'
    | none =>
      rw [hp] at h
      have : (⟨EKind.parse, initCompMsg c⟩ : HVErr) = e := Except.error.inj h
      rw [← this]

theorem parseInitComps_has_none :
    ∀ {l : List (List Char)}, (∃ c ∈ l, pyIntChars c = none) →
      ∃ m, parseInitComps l = Except.error ⟨EKind.parse, m⟩
  | [], h => by simp at h
  | c :: rest, h => by
    rw [parseInitComps]
    cases hp : pyIntChars c with
    | some v =>
      have hrest : ∃ c' ∈ rest, pyIntChars c' = none := by
        rcases h with ⟨c', hc', hn⟩
        rcases List.mem_cons.1 hc' with rfl | hmem
        · exact absurd hp (by rw [hn]; exact Option.noConfusion)
        · exact ⟨c', hmem, hn⟩
      obtain ⟨m, hm⟩ := parseInitComps_has_none hrest
      exact ⟨m, by rw [hm]; rfl⟩
    | none => exact ⟨initCompMsg c, rfl⟩

theorem parseInitComps_all_some :
    ∀ {l : List (List Char)}, (∀ c ∈ l, (pyIntChars c).isSome = true) →
      ∃ vs, parseInitComps l = Except.ok vs
  | [], _ => ⟨[], rfl⟩
  | c :: rest, h => by
    rw [parseInitComps]
    cases hp : pyIntChars c with
    | some v =>
      obtain ⟨vs, hvs⟩ := parseInitComps_all_some
        (fun c' hc' => h c' (List.mem_cons_of_mem _ hc'))
      exact ⟨v :: vs, by rw [hvs]; rfl⟩
    | none =>
      have := h c (List.mem_cons_self c rest)
      rw [hp] at this
      exact Bool.noConfusion this

theorem lastCompVal_none {last : List Char}
    (h : pyIntChars ((pySplit '-' last).headD []) = none) :
    lastCompVal last = Except.error ⟨EKind.parse, lastCompMsg last⟩ := by
  rw [lastCompVal, h]

theorem lastCompVal_some {last : List Char} {v : Int}
    (h : pyIntChars ((pySplit '-' last).headD []) = some v) :
    lastCompVal last = Except.ok v := by
  rw [lastCompVal, h]

/-! ### Ordering and surjectivity of the closed-form encoding -/

theorem encSpec_cons (a : Int) (xs : List Int) (w : Nat) (ws : List Nat) :
    encSpec (a :: xs) (w :: ws) = a * 2 ^ widthSum ws + encSpec xs ws := rfl

theorem encSpec_lt_of_head_lt {a b : Int} {xs ys : List Int} {ws : List Nat}
    (hab : a < b)
    (hRA : encSpec xs ws < 2 ^ widthSum ws) (hRB : 0 ≤ encSpec ys ws) :
    a * 2 ^ widthSum ws + encSpec xs ws < b * 2 ^ widthSum ws + encSpec ys ws := by
  have hpow : (0 : Int) < 2 ^ widthSum ws := by positivity
  have h1 : a + 1 ≤ b := hab
  calc a * 2 ^ widthSum ws + encSpec xs ws
      < a * 2 ^ widthSum ws + 2 ^ widthSum ws := by linarith
    _ = (a + 1) * 2 ^ widthSum ws := by ring
    _ ≤ b * 2 ^ widthSum ws := mul_le_mul_of_nonneg_right h1 (le_of_lt hpow)
    _ ≤ b * 2 ^ widthSum ws + encSpec ys ws := by linarith

theorem encSpec_ordering :
    ∀ (ws : List Nat) (xs ys : List Int),
      xs.length = ws.length → ys.length = ws.length →
      (∀ p ∈ xs.zip ws, 0 ≤ p.1 ∧ p.1 < 2 ^ p.2) →
      (∀ p ∈ ys.zip ws, 0 ≤ p.1 ∧ p.1 < 2 ^ p.2) →
      (encSpec xs ws < encSpec ys ws ↔ lexLtB xs ys = true) ∧
      (encSpec xs ws = encSpec ys ws ↔ xs = ys)
  | [], [], [], _, _, _, _ => by simp [encSpec, lexLtB]
  | w :: ws, a :: xs, b :: ys, hx, hy, hbx, hby => by
    have hxtail : ∀ p ∈ xs.zip ws, 0 ≤ p.1 ∧ p.1 < 2 ^ p.2 :=
      fun p hp => hbx p (by simp [List.zip_cons_cons, hp])
    have hytail : ∀ p ∈ ys.zip ws, 0 ≤ p.1 ∧ p.1 < 2 ^ p.2 :=
      fun p hp => hby p (by simp [List.zip_cons_cons, hp])
    have hxlen : xs.length = ws.length := by simpa using hx
    have hylen : ys.length = ws.length := by simpa using hy
    have ih := encSpec_ordering ws xs ys hxlen hylen hxtail hytail
    have hahead := hbx (a, w) (by simp [List.zip_cons_cons])
    have hbhead := hby (b, w) (by simp [List.zip_cons_cons])
    have hRAlt : encSpec xs ws < 2 ^ widthSum ws :=
      encSpec_lt ws xs hxlen (fun p hp => (hxtail p hp).2)
    have hRBlt : encSpec ys ws < 2 ^ widthSum ws :=
      encSpec_lt ws ys hylen (fun p hp => (hytail p hp).2)
    have hRApos : 0 ≤ encSpec xs ws := encSpec_nonneg xs ws (fun p hp => (hxtail p hp).1)
    have hRBpos : 0 ≤ encSpec ys ws := encSpec_nonneg ys ws (fun p hp => (hytail p hp).1)
    rw [encSpec_cons, encSpec_cons]
    rcases lt_trichotomy a b with hab | hab | hab
    · have hlt := encSpec_lt_of_head_lt hab hRAlt hRBpos
      constructor
      · constructor
        · intro _
          simp [lexLtB, hab]
        · intro _
          exact hlt
      · constructor
        · intro heq
          exact absurd heq (ne_of_lt hlt)
        · intro heq
          have : a = b := by injection heq
          exact absurd this (ne_of_lt hab)
    · subst hab
      constructor
      · rw [add_lt_add_iff_left, ih.1]
        simp [lexLtB]
      · rw [add_right_inj, ih.2]
        simp
    · have hlt := encSpec_lt_of_head_lt hab hRBlt hRApos
      have hne : a ≠ b := ne_of_gt hab
      constructor
      · constructor
        · intro h
          exact absurd h (not_lt.2 (le_of_lt hlt))
        · intro h
          rw [lexLtB, if_neg (not_lt.2 (le_of_lt hab)), if_neg hne] at h
          exact Bool.noConfusion h
      · constructor
        · intro heq
          exact absurd heq.symm (ne_of_lt hlt)
        · intro heq
          have : a = b := by injection heq
          exact absurd this hne

theorem encSpecN_surj :
    ∀ (bpc : List Nat) (N : Nat), N < 2 ^ widthSum bpc →
      ∃ vs : List Nat, vs.length = bpc.length ∧
        (∀ p ∈ vs.zip bpc, p.1 < 2 ^ p.2) ∧ encSpecN vs bpc = N
  | [], N, h => by
    refine ⟨[], rfl, by simp, ?_⟩
    have hN : N = 0 := by
      have : N < 1 := by simpa [widthSum] using h
      omega
    simp [encSpecN, hN]
  | w :: ws, N, h => by
    have hpos : 0 < 2 ^ widthSum ws := Nat.pos_pow_of_pos _ (by omega)
    obtain ⟨vs, hlen, hb, henc⟩ :=
      encSpecN_surj ws (N % 2 ^ widthSum ws) (Nat.mod_lt _ hpos)
    refine ⟨N / 2 ^ widthSum ws :: vs, by simp [hlen], ?_, ?_⟩
    · intro p hp
      rw [List.zip_cons_cons] at hp
      rcases List.mem_cons.1 hp with rfl | hmem
      · show N / 2 ^ widthSum ws < 2 ^ w
        rw [Nat.div_lt_iff_lt_mul hpos]
        calc N < 2 ^ widthSum (w :: ws) := h
          _ = 2 ^ w * 2 ^ widthSum ws := by
              show (2 : Nat) ^ (w + widthSum ws) = 2 ^ w * 2 ^ widthSum ws
              rw [pow_add]
      · exact hb p hmem
    · show N / 2 ^ widthSum ws * 2 ^ widthSum ws + encSpecN vs ws = N
      rw [henc, Nat.mul_comm, Nat.div_add_mod]

/-! ### Success and overflow characterisation of `get_version_str` -/

theorem get_version_str_ofNat_ok {bpc : List Nat} {x : Nat} (h : x < 2 ^ widthSum bpc) :
    get_version_str bpc (x : Int)
      = Except.ok (String.mk (List.intercalate ['.'] (decSpecN bpc x))) := by
  rw [get_version_str, get_version_strCore, decodeLoop_natCast]
  show (if (((decodeLoopN bpc x).2 : Nat) : Int) ≠ 0 then
      (Except.error (HVErr.mk EKind.overflow (overflowMsg (x : Int) bpc))
        : Except HVErr String)
    else Except.ok (String.mk (List.intercalate ['.'] (decodeLoopN bpc x).1))) = _
  rw [decodeLoopN_snd, Nat.div_eq_of_lt h, decodeLoopN_fst_decSpecN]
  simp

theorem get_version_str_ofNat_overflow {bpc : List Nat} {x : Nat}
    (h : 2 ^ widthSum bpc ≤ x) :
    get_version_str bpc (x : Int)
      = Except.error ⟨EKind.overflow, overflowMsg (x : Int) bpc⟩ := by
  rw [get_version_str, get_version_strCore, decodeLoop_natCast]
  show (if (((decodeLoopN bpc x).2 : Nat) : Int) ≠ 0 then
      (Except.error (HVErr.mk EKind.overflow (overflowMsg (x : Int) bpc))
        : Except HVErr String)
    else Except.ok (String.mk (List.intercalate ['.'] (decodeLoopN bpc x).1))) = _
  rw [decodeLoopN_snd]
  have hpos : 0 < 2 ^ widthSum bpc := Nat.pos_pow_of_pos _ (by omega)
  have hdiv : x / 2 ^ widthSum bpc ≠ 0 := by
    have : 1 ≤ x / 2 ^ widthSum bpc := (Nat.one_le_div_iff hpos).2 h
    omega
  rw [if_pos (by exact_mod_cast hdiv)]

theorem get_version_str_roundTrip {bpc : List Nat} {vals : List Nat}
    (hlen : vals.length = bpc.length) (hfit : ∀ p ∈ vals.zip bpc, p.1 < 2 ^ p.2) :
    get_version_str bpc ((encSpecN vals bpc : Nat) : Int)
      = Except.ok (String.mk (List.intercalate ['.'] (vals.map natDecChars))) := by
  rw [get_version_str, get_version_strCore, decodeLoop_natCast,
    decodeLoopN_roundTrip bpc vals hlen hfit]
  show (if (((0 : Nat)) : Int) ≠ 0 then
      (Except.error (HVErr.mk EKind.overflow
        (overflowMsg ((encSpecN vals bpc : Nat) : Int) bpc)) : Except HVErr String)
    else Except.ok (String.mk (List.intercalate ['.'] (vals.map natDecChars)))) = _
  simp

/-! ### Claim theorems -/

/-- C3: for every version string that passes parsing and arity checks under
profile `w_1..w_n` yielding values `v_1..v_n`, `get_num` returns the
shift-then-add accumulator, which equals the closed form
`v_1 * 2^(w_2+...+w_n) + ... + v_n`, with no output range clamping. -/
theorem c3_accumulation (bpc : List Nat) (V : String) (vals : List Int)
    (h : parse_vpc bpc V = Except.ok vals) :
    get_num bpc V = Except.ok (hvAccum (vals.zip bpc)) ∧
    hvAccum (vals.zip bpc) = encSpec vals bpc :=
  ⟨get_num_of_parse h, hvAccum_eq_encSpec vals bpc (parse_vpc_length h)⟩

/-- Witness for C3 at the spec's own concrete vector
`"8.20.1300.14"` under profile `[16,16,16,16]`. -/
theorem c3_accumulation_witness :
    parse_vpc [16, 16, 16, 16] "8.20.1300.14" = Except.ok [8, 20, 1300, 14] ∧
    get_num [16, 16, 16, 16] "8.20.1300.14"
      = Except.ok (hvAccum (([8, 20, 1300, 14] : List Int).zip [16, 16, 16, 16])) ∧
    hvAccum (([8, 20, 1300, 14] : List Int).zip [16, 16, 16, 16])
      = encSpec [8, 20, 1300, 14] [16, 16, 16, 16] ∧
    hvAccum (([8, 20, 1300, 14] : List Int).zip [16, 16, 16, 16]) = 2251885798227982 := by
  have hp : parse_vpc [16, 16, 16, 16] "8.20.1300.14" = Except.ok [8, 20, 1300, 14] := by
    decide
  exact ⟨hp, (c3_accumulation _ _ _ hp).1, (c3_accumulation _ _ _ hp).2, by decide⟩

/-- C8: a version string whose components all parse and whose component count
matches the profile length encodes successfully even when some component
value is out of range (`v_i ≥ 2^(w_i)`); the value is accumulated as-is. -/
theorem c8_no_range_check (bpc : List Nat) (V : String) (vals : List Int)
    (h : parse_vpc bpc V = Except.ok vals)
    (hbig : ∃ p ∈ vals.zip bpc, 2 ^ p.2 ≤ p.1) :
    get_num bpc V = Except.ok (hvAccum (vals.zip bpc)) :=
  get_num_of_parse h

/-- Witness for C8: component value `70000 ≥ 2^16` is accepted under
`[16,16,16]`. -/
theorem c8_no_range_check_witness :
    parse_vpc [16, 16, 16] "0.0.70000" = Except.ok [0, 0, 70000] ∧
    (∃ p ∈ (([0, 0, 70000] : List Int).zip [16, 16, 16]), 2 ^ p.2 ≤ p.1) ∧
    get_num [16, 16, 16] "0.0.70000"
      = Except.ok (hvAccum (([0, 0, 70000] : List Int).zip [16, 16, 16])) := by
  have hp : parse_vpc [16, 16, 16] "0.0.70000" = Except.ok [0, 0, 70000] := by decide
  have hbig : ∃ p ∈ (([0, 0, 70000] : List Int).zip [16, 16, 16]), 2 ^ p.2 ≤ p.1 := by
    decide
  exact ⟨hp, hbig, c8_no_range_check _ _ _ hp hbig⟩

/-! ### Case lemmas for `parse_vpc` -/

theorem parseInitComps_length :
    ∀ {l : List (List Char)} {vs : List Int},
      parseInitComps l = Except.ok vs → vs.length = l.length
  | [], vs, h => by
    have h' : ([] : List Int) = vs := Except.ok.inj h
    simp [← h']
  | c :: rest, vs, h => by
    rw [parseInitComps] at h
    cases hp : pyIntChars c with
    | none => rw [hp] at h; exact Except.noConfusion h
    | some v =>
      rw [hp] at h
      cases hr : parseInitComps rest with
      | error e =>
        rw [hr] at h
        have h' : (Except.error e : Except HVErr (List Int)) = Except.ok vs := h
        exact Except.noConfusion h'
      | ok vs' =>
        rw [hr] at h
        have h' : (Except.ok (v :: vs') : Except HVErr (List Int)) = Except.ok vs := h
        rw [← Except.ok.inj h']
        simp [parseInitComps_length hr]

theorem parse_vpc_err_init {bpc : List Nat} {V : String} {e : HVErr}
    (hI : parseInitComps (pySplit '.' V.toList).dropLast = Except.error e) :
    parse_vpc bpc V = Except.error e := by
  rw [parse_vpc, hI]

theorem parse_vpc_err_last {bpc : List Nat} {V : String} {initVals : List Int} {e : HVErr}
    (hI : parseInitComps (pySplit '.' V.toList).dropLast = Except.ok initVals)
    (hL : lastCompVal ((pySplit '.' V.toList).getLastD []) = Except.error e) :
    parse_vpc bpc V = Except.error e := by
  rw [parse_vpc, hI, hL]

theorem parse_vpc_arity {bpc : List Nat} {V : String} {initVals : List Int} {lastVal : Int}
    (hI : parseInitComps (pySplit '.' V.toList).dropLast = Except.ok initVals)
    (hL : lastCompVal ((pySplit '.' V.toList).getLastD []) = Except.ok lastVal)
    (hc : bpc.length ≠ (initVals ++ [lastVal]).length) :
    parse_vpc bpc V = Except.error ⟨EKind.arity, arityMsg V bpc⟩ := by
  rw [parse_vpc, hI, hL]
  show (let vpc := initVals ++ [lastVal]
    if bpc.length ≠ vpc.length then
      (Except.error (HVErr.mk EKind.arity (arityMsg V bpc)) : Except HVErr (List Int))
    else Except.ok vpc) = _
  rw [if_pos hc]

theorem parse_vpc_ok {bpc : List Nat} {V : String} {initVals : List Int} {lastVal : Int}
    (hI : parseInitComps (pySplit '.' V.toList).dropLast = Except.ok initVals)
    (hL : lastCompVal ((pySplit '.' V.toList).getLastD []) = Except.ok lastVal)
    (hc : bpc.length = (initVals ++ [lastVal]).length) :
    parse_vpc bpc V = Except.ok (initVals ++ [lastVal]) := by
  rw [parse_vpc, hI, hL]
  show (let vpc := initVals ++ [lastVal]
    if bpc.length ≠ vpc.length then
      (Except.error (HVErr.mk EKind.arity (arityMsg V bpc)) : Except HVErr (List Int))
    else Except.ok vpc) = _
  rw [if_neg (by omega)]

theorem pyIntList_none :
    ∀ {l : List (List Char)}, (∃ c ∈ l, pyIntChars c = none) → pyIntList l = none
  | [], h => by simp at h
  | c :: rest, h => by
    rw [pyIntList]
    cases hp : pyIntChars c with
    | some v =>
      have hrest : ∃ c' ∈ rest, pyIntChars c' = none := by
        rcases h with ⟨c', hc', hn⟩
        rcases List.mem_cons.1 hc' with rfl | hmem
        · exact absurd hp (by rw [hn]; exact Option.noConfusion)
        · exact ⟨c', hmem, hn⟩
      rw [pyIntList_none hrest]
      rfl
    | none => rfl

/-- C5 counterexample: the claim requires every version string whose non-last
component fails to parse as a NON-NEGATIVE base-10 integer to be rejected,
but Python `int` accepts the signed numeral `"-1"`: `"1.-1.3"` has the
non-last component `"-1"`, which parses to the negative value `-1`, and
`get_num` succeeds on it instead of raising. -/
theorem c5_counterexample :
    "-1".toList ∈ (pySplit '.' "1.-1.3".toList).dropLast ∧
    pyIntChars "-1".toList = some (-1) ∧ ((-1 : Int) < 0) ∧
    get_num [16, 16, 16] "1.-1.3" = Except.ok 4294901763 :=
  ⟨by decide, by decide, by decide, by decide⟩

/-- C5 (amended): if some component other than the last fails Python `int`
parsing (optionally signed base-10 numeral), or the last component's portion
before the first hyphen does, `get_num` fails with a parse-kind
`HashVerException`. -/
theorem c5_parse_error (bpc : List Nat) (V : String)
    (h : (∃ c ∈ (pySplit '.' V.toList).dropLast, pyIntChars c = none) ∨
      pyIntChars ((pySplit '-' ((pySplit '.' V.toList).getLastD [])).headD []) = none) :
    errKind (get_num bpc V) = some EKind.parse := by
  rcases h with hinit | hlast
  · obtain ⟨m, hm⟩ := parseInitComps_has_none hinit
    rw [get_num_of_parse_err (parse_vpc_err_init hm)]
    rfl
  · cases hI : parseInitComps (pySplit '.' V.toList).dropLast with
    | error e =>
      rw [get_num_of_parse_err (parse_vpc_err_init hI)]
      show some e.kind = some EKind.parse
      rw [parseInitComps_err_kind hI]
    | ok initVals =>
      rw [get_num_of_parse_err (parse_vpc_err_last hI (lastCompVal_none hlast))]
      rfl

/-- Witness for C5 (amended) at the spec's example `"1.x.3"`. -/
theorem c5_parse_error_witness :
    ((∃ c ∈ (pySplit '.' "1.x.3".toList).dropLast, pyIntChars c = none) ∨
      pyIntChars ((pySplit '-' ((pySplit '.' "1.x.3".toList).getLastD [])).headD [])
        = none) ∧
    errKind (get_num [16, 16, 16] "1.x.3") = some EKind.parse := by
  have h : (∃ c ∈ (pySplit '.' "1.x.3".toList).dropLast, pyIntChars c = none) ∨
      pyIntChars ((pySplit '-' ((pySplit '.' "1.x.3".toList).getLastD [])).headD [])
        = none := by decide
  exact ⟨h, c5_parse_error [16, 16, 16] "1.x.3" h⟩

/-- C6: when every component parses but the number of dot-separated
components differs from the profile length, `get_num` fails with the
arity-kind `HashVerException` whose message names both the version string
and the profile. -/
theorem c6_arity_error (bpc : List Nat) (V : String)
    (hinit : ∀ c ∈ (pySplit '.' V.toList).dropLast, (pyIntChars c).isSome = true)
    (hlast : (pyIntChars ((pySplit '-'
      ((pySplit '.' V.toList).getLastD [])).headD [])).isSome = true)
    (hcount : (pySplit '.' V.toList).length ≠ bpc.length) :
    get_num bpc V = Except.error ⟨EKind.arity, arityMsg V bpc⟩ ∧
    (∃ t, arityMsg V bpc = V ++ t) ∧
    (∃ s, arityMsg V bpc = s ++ pyStrList bpc) := by
  obtain ⟨initVals, hI⟩ := parseInitComps_all_some hinit
  obtain ⟨v, hv⟩ := Option.isSome_iff_exists.1 hlast
  have hL := lastCompVal_some hv
  have hlen1 : initVals.length = (pySplit '.' V.toList).dropLast.length :=
    parseInitComps_length hI
  have hlen2 : (pySplit '.' V.toList).dropLast.length
      = (pySplit '.' V.toList).length - 1 := List.length_dropLast _
  have hne := pySplit_ne_nil '.' V.toList
  have hpos : 0 < (pySplit '.' V.toList).length := List.length_pos.2 hne
  have hc : bpc.length ≠ (initVals ++ [v]).length := by
    rw [List.length_append, List.length_singleton, hlen1, hlen2]
    omega
  refine ⟨by rw [get_num_of_parse_err (parse_vpc_arity hI hL hc)], ?_, ?_⟩
  · exact ⟨" must have as many dot separated components as " ++ pyStrList bpc,
      String.append_assoc V " must have as many dot separated components as "
        (pyStrList bpc)⟩
  · exact ⟨V ++ " must have as many dot separated components as ", rfl⟩

/-- Witness for C6 at the spec's example: `"1.2"` under a three-field
profile. -/
theorem c6_arity_error_witness :
    (∀ c ∈ (pySplit '.' "1.2".toList).dropLast, (pyIntChars c).isSome = true) ∧
    ((pySplit '.' "1.2".toList).length ≠ ([16, 16, 16] : List Nat).length) ∧
    get_num [16, 16, 16] "1.2" = Except.error ⟨EKind.arity, arityMsg "1.2" [16, 16, 16]⟩ := by
  have h1 : ∀ c ∈ (pySplit '.' "1.2".toList).dropLast, (pyIntChars c).isSome = true := by
    decide
  have h2 : (pyIntChars ((pySplit '-'
      ((pySplit '.' "1.2".toList).getLastD [])).headD [])).isSome = true := by decide
  have h3 : (pySplit '.' "1.2".toList).length ≠ ([16, 16, 16] : List Nat).length := by
    decide
  exact ⟨h1, h3, (c6_arity_error [16, 16, 16] "1.2" h1 h2 h3).1⟩

/-- C9: building a profile from the dot-separated string `"8.8.16.8"` gives
the same widths as building it from the list `[8,8,16,8]`, and a string with
a non-integer token fails (the uncaught `ValueError` the spec calls
`ConfigError`). -/
theorem c9_profile_parsing :
    bpcOfString "8.8.16.8" = some (bpcOfList [8, 8, 16, 8]) ∧
    (∀ s : String, (∃ tok ∈ pySplit '.' s.toList, pyIntChars tok = none) →
      bpcOfString s = none) := by
  constructor
  · decide
  · intro s h
    rw [bpcOfString, pyIntList_none h]

/-- Witness for C9's failure case at `"8.x"`. -/
theorem c9_profile_parsing_witness :
    (∃ tok ∈ pySplit '.' "8.x".toList, pyIntChars tok = none) ∧
    bpcOfString "8.x" = none := by
  have h : ∃ tok ∈ pySplit '.' "8.x".toList, pyIntChars tok = none := by decide
  exact ⟨h, c9_profile_parsing.2 "8.x" h⟩

/-- C10 (amended): the first width of the profile never influences the
encoded integer or the error kind of `get_num`: under profiles `w :: ws` and
`w' :: ws` every version string yields the same successes and the same error
kinds.  (It does not fail *identically*: an arity failure's message prints
the profile, so the two messages differ — see the counterexample.) -/
theorem c10_first_width (w w' : Nat) (ws : List Nat) (V : String) :
    errKind (get_num (w :: ws) V) = errKind (get_num (w' :: ws) V) ∧
    (∀ N : Int, get_num (w :: ws) V = Except.ok N ↔ get_num (w' :: ws) V = Except.ok N) := by
  cases hI : parseInitComps (pySplit '.' V.toList).dropLast with
  | error e =>
    rw [get_num_of_parse_err (parse_vpc_err_init hI),
      get_num_of_parse_err (parse_vpc_err_init hI)]
    exact ⟨rfl, fun N => Iff.rfl⟩
  | ok initVals =>
    cases hL : lastCompVal ((pySplit '.' V.toList).getLastD []) with
    | error e =>
      rw [get_num_of_parse_err (parse_vpc_err_last hI hL),
        get_num_of_parse_err (parse_vpc_err_last hI hL)]
      exact ⟨rfl, fun N => Iff.rfl⟩
    | ok lastVal =>
      by_cases hc : (w :: ws).length ≠ (initVals ++ [lastVal]).length
      · have hc' : (w' :: ws).length ≠ (initVals ++ [lastVal]).length := by
          simpa using hc
        rw [get_num_of_parse_err (parse_vpc_arity hI hL hc),
          get_num_of_parse_err (parse_vpc_arity hI hL hc')]
        refine ⟨rfl, fun N => ?_⟩
        constructor
        · intro h; exact Except.noConfusion h
        · intro h; exact Except.noConfusion h
      · have hceq : (w :: ws).length = (initVals ++ [lastVal]).length := by omega
        have hceq' : (w' :: ws).length = (initVals ++ [lastVal]).length := by
          simpa using hceq
        rw [get_num_of_parse (parse_vpc_ok hI hL hceq),
          get_num_of_parse (parse_vpc_ok hI hL hceq')]
        obtain ⟨v0, vrest, hv⟩ :=
          List.exists_cons_of_ne_nil (show initVals ++ [lastVal] ≠ [] by simp)
        rw [hv, hvAccum_head_width v0 vrest w w' ws]
        exact ⟨rfl, fun N => Iff.rfl⟩

/-- Witness for C10 (amended) at `"1.2.3"` under `[3,16,16]` and
`[4,16,16]`. -/
theorem c10_first_width_witness :
    errKind (get_num [3, 16, 16] "1.2.3") = errKind (get_num [4, 16, 16] "1.2.3") ∧
    (∀ N : Int, get_num [3, 16, 16] "1.2.3" = Except.ok N
      ↔ get_num [4, 16, 16] "1.2.3" = Except.ok N) :=
  c10_first_width 3 4 [16, 16] "1.2.3"

/-- C10 counterexample: the claim's "fails identically" is violated — an
arity failure's message names the profile, so `get_num` under `[3,16,16]` and
`[4,16,16]` raises *different* `HashVerException`s for `"1.2"` even though
the two profiles agree on all widths but the first. -/
theorem c10_counterexample :
    get_num [3, 16, 16] "1.2"
      = Except.error ⟨EKind.arity, arityMsg "1.2" [3, 16, 16]⟩ ∧
    get_num [4, 16, 16] "1.2"
      = Except.error ⟨EKind.arity, arityMsg "1.2" [4, 16, 16]⟩ ∧
    arityMsg "1.2" [3, 16, 16] ≠ arityMsg "1.2" [4, 16, 16] ∧
    get_num [3, 16, 16] "1.2" ≠ get_num [4, 16, 16] "1.2" := by
  have h1 : get_num [3, 16, 16] "1.2"
      = Except.error ⟨EKind.arity, arityMsg "1.2" [3, 16, 16]⟩ := rfl
  have h2 : get_num [4, 16, 16] "1.2"
      = Except.error ⟨EKind.arity, arityMsg "1.2" [4, 16, 16]⟩ := rfl
  have h3 : arityMsg "1.2" [3, 16, 16] ≠ arityMsg "1.2" [4, 16, 16] := by
    simp [arityMsg, pyStrList, natDecChars_unfold, digitChar] <;> decide
  refine ⟨h1, h2, h3, ?_⟩
  rw [h1, h2]
  intro h
  exact h3 (congrArg HVErr.msg (Except.error.inj h))

/-- C4: decoding a nonnegative integer `x` under profile `w_1..w_n` succeeds
with the dot-joined decimal components `(x >> (w_(i+1)+...+w_n)) & (2^(w_i)-1)`
exactly when `x < 2^(w_1+...+w_n)`, and otherwise fails with the
overflow-kind `HashVerException`; in particular `decode(2^48)` under
`[16,16,16]` fails. -/
theorem c4_decode_overflow (bpc : List Nat) (x : Nat) :
    (x < 2 ^ widthSum bpc →
      get_version_str bpc (x : Int)
        = Except.ok (String.mk (List.intercalate ['.'] (decSpecN bpc x)))) ∧
    (2 ^ widthSum bpc ≤ x →
      get_version_str bpc (x : Int)
        = Except.error ⟨EKind.overflow, overflowMsg (x : Int) bpc⟩) ∧
    errKind (get_version_str [16, 16, 16] ((2 ^ 48 : Nat) : Int))
      = some EKind.overflow := by
  refine ⟨fun h => get_version_str_ofNat_ok h, fun h => get_version_str_ofNat_overflow h, ?_⟩
  rw [@get_version_str_ofNat_overflow [16, 16, 16] (2 ^ 48) (by decide)]
  rfl

/-- Witness for C4: both branches exercised — `300` under `[8,8]` decodes
(`300 < 2^16`), and `2^16` under `[8,8]` overflows. -/
theorem c4_decode_overflow_witness :
    ((300 : Nat) < 2 ^ widthSum [8, 8] ∧
      get_version_str [8, 8] ((300 : Nat) : Int)
        = Except.ok (String.mk (List.intercalate ['.'] (decSpecN [8, 8] 300)))) ∧
    (2 ^ widthSum [8, 8] ≤ (65536 : Nat) ∧
      get_version_str [8, 8] ((65536 : Nat) : Int)
        = Except.error ⟨EKind.overflow, overflowMsg ((65536 : Nat) : Int) [8, 8]⟩) :=
  ⟨⟨by decide, (c4_decode_overflow [8, 8] 300).1 (by decide)⟩,
   ⟨by decide, (c4_decode_overflow [8, 8] 65536).2.1 (by decide)⟩⟩

/-- C7: a hyphen-delimited suffix on the last component changes nothing
about a successful encoding — a string `W` whose dot-split agrees with `V`'s
except that the last component is `V`'s last component truncated at its
first hyphen encodes to exactly the same integers — and the suffix is not
reproduced on decode: `"0.6.4-rc1"` encodes to `393220`, which decodes to
`"0.6.4"`. -/
theorem c7_suffix (bpc : List Nat) (V W : String) (cs : List (List Char)) (l : List Char)
    (hV : pySplit '.' V.toList = cs ++ [l])
    (hW : pySplit '.' W.toList = cs ++ [(pySplit '-' l).headD []]) :
    (∀ N : Int, get_num bpc V = Except.ok N ↔ get_num bpc W = Except.ok N) ∧
    get_num [16, 16, 16] "0.6.4-rc1" = Except.ok 393220 ∧
    get_version_str [16, 16, 16] 393220 = Except.ok "0.6.4" := by
  refine ⟨?_, by decide, ?_⟩
  · have hdV : (pySplit '.' V.toList).dropLast = cs := by
      rw [hV, List.dropLast_concat]
    have hdW : (pySplit '.' W.toList).dropLast = cs := by
      rw [hW, List.dropLast_concat]
    have hlV : (pySplit '.' V.toList).getLastD [] = l := by
      rw [hV]
      exact List.getLastD_concat _ _ _
    have hlW : (pySplit '.' W.toList).getLastD [] = (pySplit '-' l).headD [] := by
      rw [hW]
      exact List.getLastD_concat _ _ _
    have hsc : (pySplit '-' ((pySplit '-' l).headD [])).headD []
        = (pySplit '-' l).headD [] := by
      rw [pySplit_head_again]
      rfl
    cases hI : parseInitComps cs with
    | error e =>
      rw [get_num_of_parse_err (@parse_vpc_err_init bpc V e (hdV ▸ hI)),
        get_num_of_parse_err (@parse_vpc_err_init bpc W e (hdW ▸ hI))]
      exact fun N => ⟨fun h => Except.noConfusion h, fun h => Except.noConfusion h⟩
    | ok initVals =>
      have hIV : parseInitComps (pySplit '.' V.toList).dropLast = Except.ok initVals := by
        rw [hdV]; exact hI
      have hIW : parseInitComps (pySplit '.' W.toList).dropLast = Except.ok initVals := by
        rw [hdW]; exact hI
      cases hp : pyIntChars ((pySplit '-' l).headD []) with
      | none =>
        have hLV : lastCompVal ((pySplit '.' V.toList).getLastD [])
            = Except.error ⟨EKind.parse, lastCompMsg l⟩ := by
          rw [hlV]; exact lastCompVal_none hp
        have hLW : lastCompVal ((pySplit '.' W.toList).getLastD [])
            = Except.error ⟨EKind.parse, lastCompMsg ((pySplit '-' l).headD [])⟩ := by
          rw [hlW]
          exact lastCompVal_none (by rw [hsc]; exact hp)
        rw [get_num_of_parse_err (parse_vpc_err_last hIV hLV),
          get_num_of_parse_err (parse_vpc_err_last hIW hLW)]
        exact fun N => ⟨fun h => Except.noConfusion h, fun h => Except.noConfusion h⟩
      | some v =>
        have hLV : lastCompVal ((pySplit '.' V.toList).getLastD []) = Except.ok v := by
          rw [hlV]; exact lastCompVal_some hp
        have hLW : lastCompVal ((pySplit '.' W.toList).getLastD []) = Except.ok v := by
          rw [hlW]
          exact lastCompVal_some (by rw [hsc]; exact hp)
        by_cases hc : bpc.length ≠ (initVals ++ [v]).length
        · rw [get_num_of_parse_err (parse_vpc_arity hIV hLV hc),
            get_num_of_parse_err (parse_vpc_arity hIW hLW hc)]
          exact fun N => ⟨fun h => Except.noConfusion h, fun h => Except.noConfusion h⟩
        · have hceq : bpc.length = (initVals ++ [v]).length := by omega
          rw [get_num_of_parse (parse_vpc_ok hIV hLV hceq),
            get_num_of_parse (parse_vpc_ok hIW hLW hceq)]
          exact fun N => Iff.rfl
  · have h : (393220 : Int) = ((393220 : Nat) : Int) := by norm_num
    rw [h, get_version_str_ofNat_ok (by decide)]
    simp [decSpecN, widthSum, natDecChars_unfold, digitChar] <;> decide

/-- Witness for C7 at `"1.5.1-rc2"` versus `"1.5.1"` under `[16,16,16]`. -/
theorem c7_suffix_witness :
    (pySplit '.' "1.5.1-rc2".toList = [['1'], ['5']] ++ ["1-rc2".toList]) ∧
    (pySplit '.' "1.5.1".toList
      = [['1'], ['5']] ++ [(pySplit '-' "1-rc2".toList).headD []]) ∧
    (∀ N : Int, get_num [16, 16, 16] "1.5.1-rc2" = Except.ok N
      ↔ get_num [16, 16, 16] "1.5.1" = Except.ok N) := by
  have h1 : pySplit '.' "1.5.1-rc2".toList = [['1'], ['5']] ++ ["1-rc2".toList] := by
    decide
  have h2 : pySplit '.' "1.5.1".toList
      = [['1'], ['5']] ++ [(pySplit '-' "1-rc2".toList).headD []] := by decide
  exact ⟨h1, h2, (c7_suffix [16, 16, 16] "1.5.1-rc2" "1.5.1" [['1'], ['5']]
    "1-rc2".toList h1 h2).1⟩

/-- C2: over valid component-value lists (right count, every value in
`[0, 2^(w_i))`), `get_num` computes the closed-form encoding, the integer
order of two encodings matches the most-significant-first component-wise
comparison, encodings are equal exactly for equal value lists (injectivity),
and every integer in `[0, 2^(w_1+...+w_n))` is the encoding of exactly such
a value list (surjectivity) — the map is a bijection on the valid space. -/
theorem c2_monotonicity_bijection (bpc : List Nat) (A B : String) (xs ys : List Int)
    (hA : parse_vpc bpc A = Except.ok xs) (hB : parse_vpc bpc B = Except.ok ys)
    (hxw : ∀ p ∈ xs.zip bpc, 0 ≤ p.1 ∧ p.1 < 2 ^ p.2)
    (hyw : ∀ p ∈ ys.zip bpc, 0 ≤ p.1 ∧ p.1 < 2 ^ p.2) :
    get_num bpc A = Except.ok (encSpec xs bpc) ∧
    get_num bpc B = Except.ok (encSpec ys bpc) ∧
    (encSpec xs bpc < encSpec ys bpc ↔ lexLtB xs ys = true) ∧
    (encSpec xs bpc = encSpec ys bpc ↔ xs = ys) ∧
    (∀ N : Int, 0 ≤ N → N < 2 ^ widthSum bpc →
      ∃ vs : List Int, vs.length = bpc.length ∧
        (∀ p ∈ vs.zip bpc, 0 ≤ p.1 ∧ p.1 < 2 ^ p.2) ∧ encSpec vs bpc = N) := by
  have hxl := parse_vpc_length hA
  have hyl := parse_vpc_length hB
  have hord := encSpec_ordering bpc xs ys hxl hyl hxw hyw
  refine ⟨?_, ?_, hord.1, hord.2, ?_⟩
  · rw [get_num_of_parse hA, hvAccum_eq_encSpec xs bpc hxl]
  · rw [get_num_of_parse hB, hvAccum_eq_encSpec ys bpc hyl]
  · intro N hN0 hNlt
    have hcast : ((2 ^ widthSum bpc : Nat) : Int) = (2 : Int) ^ widthSum bpc := by
      push_cast
      ring
    have hNlt' : N < ((2 ^ widthSum bpc : Nat) : Int) := by
      rw [hcast]
      exact hNlt
    have hNn : N.toNat < 2 ^ widthSum bpc := by omega
    obtain ⟨vs, hlen, hb, henc⟩ := encSpecN_surj bpc N.toNat hNn
    refine ⟨vs.map Int.ofNat, by simpa using hlen, ?_, ?_⟩
    · intro p hp
      rw [List.zip_map_left] at hp
      obtain ⟨⟨q1, q2⟩, hq, rfl⟩ := List.mem_map.1 hp
      constructor
      · exact Int.natCast_nonneg q1
      · show (Int.ofNat q1) < (2 : Int) ^ q2
        have hq12 : q1 < 2 ^ q2 := hb (q1, q2) hq
        rw [Int.ofNat_eq_natCast]
        exact_mod_cast hq12
    · rw [encSpec_natCast, henc, Int.toNat_of_nonneg hN0]

/-- Witness for C2 with the spec's ordered pair `"8.20.1300.14"` and
`"8.20.1300.24"` under `[16,16,16,16]`. -/
theorem c2_monotonicity_bijection_witness :
    parse_vpc [16, 16, 16, 16] "8.20.1300.14" = Except.ok [8, 20, 1300, 14] ∧
    parse_vpc [16, 16, 16, 16] "8.20.1300.24" = Except.ok [8, 20, 1300, 24] ∧
    get_num [16, 16, 16, 16] "8.20.1300.14"
      = Except.ok (encSpec [8, 20, 1300, 14] [16, 16, 16, 16]) ∧
    (encSpec [8, 20, 1300, 14] [16, 16, 16, 16]
        < encSpec [8, 20, 1300, 24] [16, 16, 16, 16]
      ↔ lexLtB [8, 20, 1300, 14] [8, 20, 1300, 24] = true) := by
  have hA : parse_vpc [16, 16, 16, 16] "8.20.1300.14" = Except.ok [8, 20, 1300, 14] := by
    decide
  have hB : parse_vpc [16, 16, 16, 16] "8.20.1300.24" = Except.ok [8, 20, 1300, 24] := by
    decide
  have hxw : ∀ p ∈ (([8, 20, 1300, 14] : List Int).zip [16, 16, 16, 16]),
      0 ≤ p.1 ∧ p.1 < 2 ^ p.2 := by decide
  have hyw : ∀ p ∈ (([8, 20, 1300, 24] : List Int).zip [16, 16, 16, 16]),
      0 ≤ p.1 ∧ p.1 < 2 ^ p.2 := by decide
  have h := c2_monotonicity_bijection [16, 16, 16, 16] "8.20.1300.14" "8.20.1300.24"
    [8, 20, 1300, 14] [8, 20, 1300, 24] hA hB hxw hyw
  exact ⟨hA, hB, h.1, h.2.2.1⟩

/-- C1 counterexample: `"0.01.2"` is well-formed for `[16,16,16]` (three
components, each parsing to a value in range: 0, 1, 2), yet decoding its
encoding gives `"0.1.2"`, not the suffix-stripped original `"0.01.2"` — the
round trip as claimed fails on non-canonical numerals. -/
theorem c1_counterexample :
    parse_vpc [16, 16, 16] "0.01.2" = Except.ok [0, 1, 2] ∧
    (∀ p ∈ (([0, 1, 2] : List Int).zip [16, 16, 16]), 0 ≤ p.1 ∧ p.1 < 2 ^ p.2) ∧
    get_num [16, 16, 16] "0.01.2" = Except.ok 65538 ∧
    get_version_str [16, 16, 16] 65538 = Except.ok "0.1.2" ∧
    strip_suffix "0.01.2" = "0.01.2" ∧
    ("0.1.2" : String) ≠ "0.01.2" := by
  refine ⟨by decide, by decide, by decide, ?_, by decide, by decide⟩
  have h : (65538 : Int) = ((65538 : Nat) : Int) := by norm_num
  rw [h, get_version_str_ofNat_ok (by decide)]
  simp [decSpecN, widthSum, natDecChars_unfold, digitChar] <;> decide

/-- C1 (amended): the round trip holds for version strings whose components
are the canonical decimal numerals of values fitting the profile (the
counterexample forces canonicity — no leading zeros, signs, whitespace or
underscores): if `V` dot-splits into the canonical numerals of `vals`
(the last carrying an optional hyphen suffix), with as many components as
profile entries and every value in range, then decoding the encoding of `V`
returns `V` with the suffix stripped. -/
theorem c1_round_trip_canonical (bpc : List Nat) (vals : List Nat) (lastC : List Char)
    (V : String) (hne : vals ≠ []) (hlen : vals.length = bpc.length)
    (hsplit : pySplit '.' V.toList = vals.dropLast.map natDecChars ++ [lastC])
    (hlast : (pySplit '-' lastC).headD [] = natDecChars (vals.getLastD 0))
    (hfit : ∀ p ∈ vals.zip bpc, p.1 < 2 ^ p.2)
    (hstrip : strip_suffix V
      = String.mk (List.intercalate ['.'] (vals.map natDecChars))) :
    (get_num bpc V).bind (fun N => get_version_str bpc N)
      = Except.ok (strip_suffix V) := by
  have hp := parse_vpc_canonical bpc vals lastC V hne hlen hsplit hlast
  have hga : get_num bpc V = Except.ok (hvAccum ((vals.map Int.ofNat).zip bpc)) :=
    get_num_of_parse hp
  have hlen2 : (vals.map Int.ofNat).length = bpc.length := by simpa using hlen
  have hacc : hvAccum ((vals.map Int.ofNat).zip bpc) = encSpec (vals.map Int.ofNat) bpc :=
    hvAccum_eq_encSpec _ _ hlen2
  rw [hga, hacc, encSpec_natCast]
  show get_version_str bpc ((encSpecN vals bpc : Nat) : Int) = Except.ok (strip_suffix V)
  rw [get_version_str_roundTrip hlen hfit, hstrip]

/-- Witness for C1 (amended) at the spec's example `"0.6.4-rc1"` under
`[16,16,16]`. -/
theorem c1_round_trip_canonical_witness :
    (pySplit '.' "0.6.4-rc1".toList
      = ([0, 6, 4] : List Nat).dropLast.map natDecChars ++ ["4-rc1".toList]) ∧
    ((pySplit '-' "4-rc1".toList).headD []
      = natDecChars (([0, 6, 4] : List Nat).getLastD 0)) ∧
    (strip_suffix "0.6.4-rc1"
      = String.mk (List.intercalate ['.'] (([0, 6, 4] : List Nat).map natDecChars))) ∧
    (get_num [16, 16, 16] "0.6.4-rc1").bind (fun N => get_version_str [16, 16, 16] N)
      = Except.ok (strip_suffix "0.6.4-rc1") := by
  have h1 : pySplit '.' "0.6.4-rc1".toList
      = ([0, 6, 4] : List Nat).dropLast.map natDecChars ++ ["4-rc1".toList] := by
    simp [natDecChars_unfold, digitChar] <;> decide
  have h2 : (pySplit '-' "4-rc1".toList).headD []
      = natDecChars (([0, 6, 4] : List Nat).getLastD 0) := by
    simp [natDecChars_unfold, digitChar] <;> decide
  have h3 : strip_suffix "0.6.4-rc1"
      = String.mk (List.intercalate ['.'] (([0, 6, 4] : List Nat).map natDecChars)) := by
    simp [natDecChars_unfold, digitChar] <;> decide
  exact ⟨h1, h2, h3, c1_round_trip_canonical [16, 16, 16] [0, 6, 4] "4-rc1".toList
    "0.6.4-rc1" (by decide) (by decide) h1 h2 (by decide) h3⟩
